import Mathlib

/-!
Verification of the watch-segment tracker of the credlyse browser extension
(`src/content/tracking/VideoTracker.ts` and `src/content/tracking/storageUtils.ts`).

Times, durations and playback rates are modelled as rationals: the tracking
logic only adds, subtracts, compares, divides and sorts these numbers, so exact
rational arithmetic is the shallow embedding of the JS number arithmetic used
here.  An interval is the JS two-element array `[start, end]`.

Statefulness is modelled by explicit state passing: each event handler is a
function from the tracker's private fields (plus the media-element values it
reads: `currentTime`, `playbackRate`) to the new fields, together with the
records it persists and the toasts it shows.
-/

/-- A watched interval: the JS two-element array `[start, end]` of seconds. -/
abbrev Seg : Type := ℚ × ℚ

/-- The comparator of both sorts in the source, `(a, b) => a[0] - b[0]`:
segments are ordered by interval start only. -/
def startLE (a b : Seg) : Prop := a.1 ≤ b.1

instance : DecidableRel startLE := fun a b => inferInstanceAs (Decidable (a.1 ≤ b.1))

instance : IsTotal Seg startLE := ⟨fun a b => le_total a.1 b.1⟩

instance : IsTrans Seg startLE := ⟨fun _ _ _ h1 h2 => le_trans h1 h2⟩

/-- The JS `[...segments].sort((a, b) => a[0] - b[0])`.  ECMAScript sorts are
stable, and insertion sort is stable for a comparator that only looks at the
start, so this is a faithful value-level model of that sort. -/
def sortSegments (l : List Seg) : List Seg := List.insertionSort startLE l

/-- Constant `MAX_PLAYBACK_RATE` (VideoTracker.ts line 9). -/
def MAX_PLAYBACK_RATE : ℚ := 2

/-- Constant `GAP_THRESHOLD` (line 10), in seconds. -/
def GAP_THRESHOLD : ℚ := 1

/-- Constant `COMPLETION_THRESHOLD` (line 12): 98% watched counts as complete. -/
def COMPLETION_THRESHOLD : ℚ := 98 / 100

/-- The loop of `mergeSegmentsArray` (lines 364-371) and of `mergeSegments`
(lines 286-296): `cur` is the interval currently last in `merged`; for the next
sorted interval `s`, if `s[0] <= cur[1] + 0.5` the loop extends the last
interval's end to `max(cur[1], s[1])`, otherwise `cur` is emitted and a copy of
`s` becomes the new last interval. -/
def mergeInto (cur : Seg) : List Seg → List Seg
  | [] => [cur]
  | s :: rest =>
    if s.1 ≤ cur.2 + 1 / 2 then mergeInto (cur.1, max cur.2 s.2) rest
    else cur :: mergeInto s rest

/-- The body of `mergeSegmentsArray` after the sort, started from
`merged = [sorted[0]]`.  The `[]` case is unreachable: the caller only sorts
lists of length at least 2. -/
def mergeTop : List Seg → List Seg
  | [] => []
  | a :: rest => mergeInto a rest

/-- `mergeSegmentsArray(segments)` (lines 358-374) as a function on values:
lists of length at most 1 are returned unchanged, otherwise the list is stably
sorted by start and folded with the 0.5 s tolerance merge. -/
def mergeSegmentsArray (segments : List Seg) : List Seg :=
  if segments.length ≤ 1 then segments else mergeTop (sortSegments segments)

/-- `calculateTotalWatched` (lines 304-308): fold of `total + (end - start)`
over the segments, starting from 0.  The inline reduce in `saveProgressNow`
(line 339) is the same fold. -/
def calculateTotalWatched (segments : List Seg) : ℚ :=
  segments.foldl (fun total s => total + (s.2 - s.1)) 0

/-- The end value accumulated in `merged[0]` while `merged` still has exactly
one element, i.e. the final value of `sorted[0][1]` after the merge loop ran:
`last[1] = Math.max(last[1], sorted[i][1])` keeps writing into the array object
`sorted[0]` itself until the first `merged.push([...current])` of a copy. -/
def firstGroupEnd (cur : Seg) : List Seg → ℚ
  | [] => cur.2
  | s :: rest =>
    if s.1 ≤ cur.2 + 1 / 2 then firstGroupEnd (cur.1, max cur.2 s.2) rest else cur.2

/-- Overwrite the end of the first listed segment whose start is `m`, if any,
with `e`; all other segments are untouched. -/
def setEndAtFirstMin (m e : ℚ) : List Seg → List Seg
  | [] => []
  | s :: rest => if s.1 = m then (s.1, e) :: rest else s :: setEndAtFirstMin m e rest

/-- Value-level effect of `mergeSegmentsArray(toSave)` on the caller's own
`watchedSegments` array, caused by aliasing: `[...this.watchedSegments]` and
`[...segments].sort(...)` are shallow copies, so the inner `[start, end]`
arrays are shared with the tracker state.  The merge loop mutates only the
object `sorted[0]` (every later `merged` entry is pushed as a copy), setting
its end to the merged end of the first group.  `sorted[0]` is, by stability of
the sort, the first element of `toSave` attaining the minimal start; since the
in-progress segment (when present) is a fresh array appended last, `sorted[0]`
belongs to `watched` exactly when some element of `watched` has start
`sorted[0][0]`, and then it is the first such element — which is exactly the
element `setEndAtFirstMin` rewrites.  When `toSave.length <= 1` the function
returns before sorting and nothing is mutated. -/
def aliasMutate (watched toSave : List Seg) : List Seg :=
  if toSave.length ≤ 1 then watched
  else
    match sortSegments toSave with
    | [] => watched
    | s0 :: rest => setEndAtFirstMin s0.1 (firstGroupEnd s0 rest) watched

/-- User-facing toasts issued by the tracker through `showToast`. -/
inductive Notice
  | speedWarning
  | resumed
  | completed
deriving DecidableEq

/-- The record passed to `saveProgress` (storageUtils.ts `VideoProgress`).
The `lastUpdated: Date.now()` wall-clock field is outside the model. -/
structure VideoProgress where
  videoId : String
  watchedSegments : List Seg
  isComplete : Bool
  totalWatched : ℚ
  duration : ℚ

/-- The mutable private fields of the `VideoTracker` class (lines 24-34).
The `videoElement` is taken as present (the handlers are events of that very
element, and every claim concerns an attached tracker); `saveTimeout` records
whether a debounced save timer is pending. -/
structure Tracker where
  videoId : String
  duration : ℚ
  watchedSegments : List Seg
  lastRecordedTime : ℚ
  currentSegmentStart : ℚ
  isTracking : Bool
  saveTimeout : Bool
  isComplete : Bool
  speedWarningShown : Bool
  isSpeedExceeded : Bool

/-- `mergeSegments` (lines 279-299): replaces `this.watchedSegments` by its
merge.  The method's own `length <= 1` early return coincides with the one
inside `mergeSegmentsArray`, and because the field is reassigned to the freshly
built `merged` array, its value is exactly the pure merge. -/
def mergeSegments (t : Tracker) : Tracker :=
  { t with watchedSegments := mergeSegmentsArray t.watchedSegments }

/-- `scheduleSave` (lines 313-320): a no-op if a save is already pending,
otherwise a debounced timer is now pending. -/
def scheduleSave (t : Tracker) : Tracker :=
  if t.saveTimeout then t else { t with saveTimeout := true }

/-- `handleTimeUpdate` (lines 151-185) at playhead position `currentTime`. -/
def handleTimeUpdate (t : Tracker) (currentTime : ℚ) : Tracker :=
  if !t.isTracking || t.isComplete then t
  else if t.isSpeedExceeded then t
  else if t.lastRecordedTime < 0 then
    { t with lastRecordedTime := currentTime, currentSegmentStart := currentTime }
  else
    scheduleSave
      (let gap := currentTime - t.lastRecordedTime
       if 0 < gap ∧ gap < GAP_THRESHOLD then { t with lastRecordedTime := currentTime }
       else if GAP_THRESHOLD ≤ gap ∨ gap < 0 then
         let t2 :=
           if 0 ≤ t.currentSegmentStart ∧ t.currentSegmentStart < t.lastRecordedTime then
             mergeSegments { t with watchedSegments :=
               t.watchedSegments ++ [(t.currentSegmentStart, t.lastRecordedTime)] }
           else t
         { t2 with currentSegmentStart := currentTime, lastRecordedTime := currentTime }
       else t)

/-- `handleSeeked` (lines 190-205) at the post-seek playhead `currentTime`. -/
def handleSeeked (t : Tracker) (currentTime : ℚ) : Tracker :=
  let t1 :=
    if 0 ≤ t.currentSegmentStart ∧ t.currentSegmentStart < t.lastRecordedTime then
      mergeSegments { t with watchedSegments :=
        t.watchedSegments ++ [(t.currentSegmentStart, t.lastRecordedTime)] }
    else t
  { t1 with currentSegmentStart := currentTime, lastRecordedTime := currentTime }

/-- `finalizeCurrentSegment` (lines 268-274). -/
def finalizeCurrentSegment (t : Tracker) : Tracker :=
  let t1 :=
    if 0 ≤ t.currentSegmentStart ∧ t.currentSegmentStart < t.lastRecordedTime then
      mergeSegments { t with watchedSegments :=
        t.watchedSegments ++ [(t.currentSegmentStart, t.lastRecordedTime)] }
    else t
  { t1 with currentSegmentStart := -1 }

/-- `handleRateChange` (lines 210-246) for a new `playbackRate`, with
`currentTime` the playhead read when tracking resumes. -/
def handleRateChange (t : Tracker) (playbackRate currentTime : ℚ) :
    Tracker × List Notice :=
  if MAX_PLAYBACK_RATE < playbackRate then
    let t1 := if t.isSpeedExceeded then t
      else { finalizeCurrentSegment t with isSpeedExceeded := true }
    if t1.speedWarningShown then (t1, [])
    else ({ t1 with speedWarningShown := true }, [Notice.speedWarning])
  else
    if t.isSpeedExceeded then
      ({ t with isSpeedExceeded := false, currentSegmentStart := currentTime,
                lastRecordedTime := currentTime, speedWarningShown := false },
       [Notice.resumed])
    else ({ t with speedWarningShown := false }, [])

/-- `saveProgressNow` (lines 325-353).  Returns the new tracker state and the
record handed to `saveProgress`.  The in-progress segment is appended (as a
fresh array) when non-empty, the result is merged for the record — and, per
the aliasing analysis at `aliasMutate`, that merge writes the merged end of the
first group back into the first minimal-start element of `watchedSegments`. -/
def saveProgressNow (t : Tracker) : Tracker × VideoProgress :=
  let segmentsToSave := t.watchedSegments ++
    (if 0 ≤ t.currentSegmentStart ∧ t.currentSegmentStart < t.lastRecordedTime
     then [(t.currentSegmentStart, t.lastRecordedTime)] else [])
  let tempSegments := mergeSegmentsArray segmentsToSave
  ({ t with saveTimeout := false,
            watchedSegments := aliasMutate t.watchedSegments segmentsToSave },
   { videoId := t.videoId, watchedSegments := tempSegments,
     isComplete := t.isComplete,
     totalWatched := calculateTotalWatched tempSegments,
     duration := t.duration })

/-- `handlePause` (lines 251-254): finalize, then save immediately. -/
def handlePause (t : Tracker) : Tracker × VideoProgress :=
  saveProgressNow (finalizeCurrentSegment t)

/-- `checkCompletion` (lines 379-395): no-op when already complete or the
duration is non-positive; otherwise sets `isComplete`, forces a save and shows
the success toast exactly when the watched ratio reaches the threshold. -/
def checkCompletion (t : Tracker) : Tracker × Option VideoProgress × List Notice :=
  if t.isComplete = true ∨ t.duration ≤ 0 then (t, none, [])
  else
    let totalWatched := calculateTotalWatched t.watchedSegments
    let percentComplete := totalWatched / t.duration
    if COMPLETION_THRESHOLD ≤ percentComplete then
      let p := saveProgressNow { t with isComplete := true }
      (p.1, some p.2, [Notice.completed])
    else (t, none, [])

/-- `handleEnded` (lines 259-263): finalize, save, then evaluate completion.
Returns the final state, the list of records saved (one or two), and the
toasts shown. -/
def handleEnded (t : Tracker) : Tracker × List VideoProgress × List Notice :=
  let t1 := finalizeCurrentSegment t
  let p := saveProgressNow t1
  let q := checkCompletion p.1
  (q.1, p.2 :: q.2.1.toList, q.2.2)

/-- `destroy` (lines 436-449): stop tracking, finalize, save, and clear any
pending debounced-save timer. -/
def destroy (t : Tracker) : Tracker × VideoProgress :=
  let t1 := finalizeCurrentSegment { t with isTracking := false }
  let p := saveProgressNow t1
  ({ p.1 with saveTimeout := false }, p.2)

/-- The published snapshot shape (`TrackerState`, lines 14-21). -/
structure TrackerState where
  videoId : String
  duration : ℚ
  watchedSegments : List Seg
  totalWatched : ℚ
  percentComplete : ℚ
  isComplete : Bool

/-- `getState` (lines 419-431): derived snapshot with the published percentage
clamped to at most 100 and set to 0 for a non-positive duration. -/
def getState (t : Tracker) : TrackerState :=
  let totalWatched := calculateTotalWatched t.watchedSegments
  let percentComplete := if 0 < t.duration then totalWatched / t.duration * 100 else 0
  { videoId := t.videoId, duration := t.duration,
    watchedSegments := t.watchedSegments, totalWatched := totalWatched,
    percentComplete := min percentComplete 100, isComplete := t.isComplete }

/-- `emitProgressUpdate` (lines 400-414) builds the very same snapshot as
`getState` and dispatches it on the event bus; the function returns the
published detail object. -/
def emitProgressUpdate (t : Tracker) : TrackerState :=
  let totalWatched := calculateTotalWatched t.watchedSegments
  let percentComplete := if 0 < t.duration then totalWatched / t.duration * 100 else 0
  { videoId := t.videoId, duration := t.duration,
    watchedSegments := t.watchedSegments, totalWatched := totalWatched,
    percentComplete := min percentComplete 100, isComplete := t.isComplete }

/-- The environment a single `getProgress(videoId)` call (storageUtils.ts
lines 85-112) runs in: whether the chrome storage backend is reachable
(`isExtensionContextValid() && chrome.storage?.local`), whether its `get`
callback reports `chrome.runtime.lastError`, the structured value it holds for
the key, and the raw string `localStorage` holds for the key. -/
structure StorageWorld where
  chromeAvailable : Bool
  chromeError : Bool
  chromeValue : Option VideoProgress
  localValue : Option String

/-- `getProgress` (storageUtils.ts lines 85-112).  `parse` models `JSON.parse`
(`none` = the string is malformed and `JSON.parse` throws).  Both read paths
evaluate `data ? JSON.parse(data) : null`: `localStorage.getItem` yields `null`
(here `Option.none`) or a string, and of the strings exactly the empty one is
falsy, so `JSON.parse` runs only on a non-empty string.  `Except.error` marks
an exception escaping the function uncaught — on the chrome-error fallback
path (line 96) `JSON.parse(data)` runs with no surrounding `try`/`catch`,
unlike the direct localStorage path (lines 105-111) whose `catch` returns
`null`. -/
def getProgressM (parse : String → Option VideoProgress) (w : StorageWorld) :
    Except Unit (Option VideoProgress) :=
  if w.chromeAvailable then
    if w.chromeError then
      match w.localValue with
      | none => .ok none
      | some s =>
        if s = "" then .ok none
        else
          match parse s with
          | some v => .ok (some v)
          | none => .error ()
    else .ok w.chromeValue
  else
    match w.localValue with
    | none => .ok none
    | some s =>
      if s = "" then .ok none
      else
        match parse s with
        | some v => .ok (some v)
        | none => .ok none

/-- Two merged segments are more than the 0.5 s merge tolerance apart. -/
def farApart (a b : Seg) : Prop := a.2 + 1 / 2 < b.1

instance : DecidableRel farApart := fun a b => inferInstanceAs (Decidable (a.2 + 1 / 2 < b.1))

/-- The `WatchedSegmentSet` invariant of the specification: every interval is
non-degenerate, intervals are strictly sorted by start, pairwise disjoint, and
adjacent intervals are more than the 0.5 s merge tolerance apart. -/
def Canonical (l : List Seg) : Prop :=
  (∀ s ∈ l, s.1 < s.2) ∧
  l.Pairwise (fun a b : Seg => a.1 < b.1) ∧
  l.Pairwise (fun a b : Seg => a.2 < b.1) ∧
  l.Chain' farApart

/-- Convenient example states for concrete evaluations. -/
def baseT : Tracker :=
  { videoId := "v", duration := 100, watchedSegments := [],
    lastRecordedTime := -1, currentSegmentStart := -1, isTracking := true,
    saveTimeout := false, isComplete := false, speedWarningShown := false,
    isSpeedExceeded := false }

/-- State exhibiting the aliasing write of `saveProgressNow`: one stored
segment `[0, 2]` and an open interval `[2, 3]` within merge tolerance. -/
def c1t : Tracker :=
  { baseT with watchedSegments := [(0, 2)], currentSegmentStart := 2,
               lastRecordedTime := 3, saveTimeout := true }

theorem scheduleSave_eq (t : Tracker) : scheduleSave t = { t with saveTimeout := true } := by
  unfold scheduleSave
  split
  · next h => rw [show (true : Bool) = t.saveTimeout from h.symm]
  · rfl

theorem mergeInto_head_end (xs : List Seg) :
    ∀ cur : Seg, ∃ t, mergeInto cur xs = (cur.1, firstGroupEnd cur xs) :: t := by
  induction xs with
  | nil => exact fun cur => ⟨[], rfl⟩
  | cons s rest ih =>
    intro cur
    by_cases h : s.1 ≤ cur.2 + 1 / 2
    · obtain ⟨t, ht⟩ := ih (cur.1, max cur.2 s.2)
      refine ⟨t, ?_⟩
      simp only [mergeInto, firstGroupEnd]
      rw [if_pos h, if_pos h]
      exact ht
    · refine ⟨mergeInto s rest, ?_⟩
      simp only [mergeInto, firstGroupEnd]
      rw [if_neg h, if_neg h]

theorem mergeInto_chain (xs : List Seg) :
    ∀ cur : Seg, (mergeInto cur xs).Chain' farApart := by
  induction xs with
  | nil => intro cur; simp [mergeInto]
  | cons s rest ih =>
    intro cur
    by_cases h : s.1 ≤ cur.2 + 1 / 2
    · simp only [mergeInto]
      rw [if_pos h]
      exact ih (cur.1, max cur.2 s.2)
    · obtain ⟨t, ht⟩ := mergeInto_head_end rest s
      have hc := ih s
      rw [ht] at hc
      simp only [mergeInto]
      rw [if_neg h, ht]
      exact List.chain'_cons.mpr ⟨not_le.mp h, hc⟩

theorem mergeInto_sorted (xs : List Seg) :
    ∀ cur : Seg, xs.Pairwise startLE → (∀ x ∈ xs, cur.1 ≤ x.1) →
      (mergeInto cur xs).Pairwise startLE ∧ ∀ s ∈ mergeInto cur xs, cur.1 ≤ s.1 := by
  induction xs with
  | nil =>
    intro cur _ _
    refine ⟨by simp [mergeInto], ?_⟩
    intro s hs
    rw [mergeInto] at hs
    simp only [List.mem_singleton] at hs
    exact hs ▸ le_refl _
  | cons s rest ih =>
    intro cur hp hlb
    rw [List.pairwise_cons] at hp
    by_cases h : s.1 ≤ cur.2 + 1 / 2
    · have hres := ih (cur.1, max cur.2 s.2) hp.2
        (fun x hx => hlb x (List.mem_cons_of_mem s hx))
      simp only [mergeInto]
      rw [if_pos h]
      exact hres
    · have hres := ih s hp.2 hp.1
      have hcs : cur.1 ≤ s.1 := hlb s (List.mem_cons_self s rest)
      simp only [mergeInto]
      rw [if_neg h]
      constructor
      · exact List.pairwise_cons.mpr
          ⟨fun y hy => le_trans hcs (hres.2 y hy), hres.1⟩
      · intro x hx
        rcases List.mem_cons.mp hx with rfl | hx
        · exact le_refl _
        · exact le_trans hcs (hres.2 x hx)

theorem mergeInto_wf (xs : List Seg) :
    ∀ cur : Seg, cur.1 < cur.2 → (∀ x ∈ xs, x.1 < x.2) →
      ∀ s ∈ mergeInto cur xs, s.1 < s.2 := by
  induction xs with
  | nil =>
    intro cur hcur _ s hs
    rw [mergeInto] at hs
    simp only [List.mem_singleton] at hs
    exact hs ▸ hcur
  | cons s rest ih =>
    intro cur hcur hwf x hx
    by_cases h : s.1 ≤ cur.2 + 1 / 2
    · rw [mergeInto, if_pos h] at hx
      exact ih (cur.1, max cur.2 s.2) (lt_of_lt_of_le hcur (le_max_left _ _))
        (fun y hy => hwf y (List.mem_cons_of_mem s hy)) x hx
    · rw [mergeInto, if_neg h] at hx
      rcases List.mem_cons.mp hx with rfl | hx
      · exact hcur
      · exact ih s (hwf s (List.mem_cons_self s rest))
          (fun y hy => hwf y (List.mem_cons_of_mem s hy)) x hx

theorem mergeInto_of_chain (xs : List Seg) :
    ∀ cur : Seg, (cur :: xs).Chain' farApart → mergeInto cur xs = cur :: xs := by
  induction xs with
  | nil => intro cur _; rfl
  | cons s rest ih =>
    intro cur hch
    rw [List.chain'_cons] at hch
    have h : ¬ s.1 ≤ cur.2 + 1 / 2 := not_le.mpr hch.1
    rw [mergeInto, if_neg h, ih s hch.2]

theorem mergeTop_of_chain (l : List Seg) (h : l.Chain' farApart) : mergeTop l = l := by
  cases l with
  | nil => rfl
  | cons a rest => exact mergeInto_of_chain rest a h

theorem chain_head_all (xs : List Seg) :
    ∀ a : Seg, (∀ s ∈ a :: xs, s.1 < s.2) → (a :: xs).Chain' farApart →
      ∀ c ∈ xs, farApart a c := by
  induction xs with
  | nil => intro a _ _ c hc; cases hc
  | cons b rest ih =>
    intro a hwf hch c hc
    rw [List.chain'_cons] at hch
    rcases List.mem_cons.mp hc with rfl | hc
    · exact hch.1
    · have hb := ih b (fun s hs => hwf s (List.mem_cons_of_mem a hs)) hch.2 c hc
      have hb12 : b.1 < b.2 := hwf b (List.mem_cons_of_mem a (List.mem_cons_self b rest))
      have h1 : a.2 + 1 / 2 < b.1 := hch.1
      have h2 : b.2 + 1 / 2 < c.1 := hb
      unfold farApart at *
      linarith

theorem chain_wf_pairwise (l : List Seg) (hwf : ∀ s ∈ l, s.1 < s.2)
    (hch : l.Chain' farApart) : l.Pairwise farApart := by
  induction l with
  | nil => simp
  | cons a rest ih =>
    rw [List.pairwise_cons]
    exact ⟨chain_head_all rest a hwf hch,
      ih (fun s hs => hwf s (List.mem_cons_of_mem a hs)) hch.tail⟩

theorem mergeSegmentsArray_canonical (l : List Seg)
    (hwf : ∀ s ∈ l, s.1 < s.2) : Canonical (mergeSegmentsArray l) := by
  unfold mergeSegmentsArray
  split
  · refine ⟨hwf, ?_, ?_, ?_⟩
    · rcases l with _ | ⟨a, _ | ⟨b, t⟩⟩ <;> simp_all
    · rcases l with _ | ⟨a, _ | ⟨b, t⟩⟩ <;> simp_all
    · rcases l with _ | ⟨a, _ | ⟨b, t⟩⟩ <;> simp_all
  · next hlen =>
    have hperm : (sortSegments l).Perm l := List.perm_insertionSort _ _
    have hwf2 : ∀ s ∈ sortSegments l, s.1 < s.2 :=
      fun s hs => hwf s (hperm.mem_iff.mp hs)
    have hsorted : (sortSegments l).Pairwise startLE := List.sorted_insertionSort _ _
    rcases hse : sortSegments l with _ | ⟨a, rest⟩
    · exfalso
      have := hperm.length_eq
      rw [hse] at this
      simp at this
      omega
    · rw [hse] at hwf2 hsorted
      have hwfa : a.1 < a.2 := hwf2 a (List.mem_cons_self a rest)
      have hwfr : ∀ x ∈ rest, x.1 < x.2 :=
        fun x hx => hwf2 x (List.mem_cons_of_mem a hx)
      have hchain := mergeInto_chain rest a
      have hwfo := mergeInto_wf rest a hwfa hwfr
      have hpair := chain_wf_pairwise _ hwfo hchain
      refine ⟨hwfo, ?_, ?_, hchain⟩
      · refine hpair.imp_of_mem ?_
        intro p q hp _ hr
        have hp12 : p.1 < p.2 := hwfo p hp
        unfold farApart at hr
        linarith
      · refine hpair.imp_of_mem ?_
        intro p q _ _ hr
        unfold farApart at hr
        linarith

theorem mergeSegmentsArray_sorted_chain (l : List Seg) :
    (mergeSegmentsArray l).Pairwise startLE ∧ (mergeSegmentsArray l).Chain' farApart := by
  unfold mergeSegmentsArray
  split
  · rcases l with _ | ⟨a, _ | ⟨b, t⟩⟩ <;> simp_all
  · next hlen =>
    have hsorted : (sortSegments l).Pairwise startLE := List.sorted_insertionSort _ _
    rcases hse : sortSegments l with _ | ⟨a, rest⟩
    · simp [mergeTop]
    · rw [hse] at hsorted
      rw [List.pairwise_cons] at hsorted
      exact ⟨(mergeInto_sorted rest a hsorted.2 hsorted.1).1, mergeInto_chain rest a⟩

theorem mergeSegmentsArray_idem (l : List Seg) :
    mergeSegmentsArray (mergeSegmentsArray l) = mergeSegmentsArray l := by
  by_cases hlen : l.length ≤ 1
  · have hinner : mergeSegmentsArray l = l := by rw [mergeSegmentsArray, if_pos hlen]
    rw [hinner]
    exact hinner
  · obtain ⟨hsorted, hchain⟩ := mergeSegmentsArray_sorted_chain l
    by_cases hM : (mergeSegmentsArray l).length ≤ 1
    · conv_lhs => rw [mergeSegmentsArray]
      rw [if_pos hM]
    · conv_lhs => rw [mergeSegmentsArray]
      rw [if_neg hM]
      unfold sortSegments
      rw [List.Sorted.insertionSort_eq hsorted, mergeTop_of_chain _ hchain]

theorem mergeInto_cons_pos (cur s : Seg) (L : List Seg) (h : s.1 ≤ cur.2 + 1 / 2) :
    mergeInto cur (s :: L) = mergeInto (cur.1, max cur.2 s.2) L := by
  simp only [mergeInto]
  rw [if_pos h]

theorem mergeInto_cons_neg (cur s : Seg) (L : List Seg) (h : ¬ s.1 ≤ cur.2 + 1 / 2) :
    mergeInto cur (s :: L) = cur :: mergeInto s L := by
  simp only [mergeInto]
  rw [if_neg h]

theorem mergeInto_bubble (p : List Seg) :
    ∀ b : Seg, b.1 ≤ b.2 → (∀ x ∈ p, x.1 = b.1 ∧ x.1 ≤ x.2) →
      ∀ (cur : Seg) (q : List Seg),
        mergeInto cur (p ++ b :: q) = mergeInto cur (b :: (p ++ q)) := by
  induction p with
  | nil => intro b _ _ cur q; rfl
  | cons x p2 ih =>
    intro b hb hp cur q
    have hx := hp x (List.mem_cons_self x p2)
    have hp2 : ∀ y ∈ p2, y.1 = b.1 ∧ y.1 ≤ y.2 :=
      fun y hy => hp y (List.mem_cons_of_mem x hy)
    by_cases hc : x.1 ≤ cur.2 + 1 / 2
    · have hcb : b.1 ≤ cur.2 + 1 / 2 := by rw [← hx.1]; exact hc
      have hcb2 : b.1 ≤ max cur.2 x.2 + 1 / 2 :=
        le_trans hcb (add_le_add_right (le_max_left _ _) _)
      have hcx2 : x.1 ≤ max cur.2 b.2 + 1 / 2 :=
        le_trans hc (add_le_add_right (le_max_left _ _) _)
      have hmax : max (max cur.2 x.2) b.2 = max (max cur.2 b.2) x.2 := by
        rw [max_assoc, max_comm x.2 b.2, ← max_assoc]
      calc mergeInto cur ((x :: p2) ++ b :: q)
          = mergeInto (cur.1, max cur.2 x.2) (p2 ++ b :: q) :=
            mergeInto_cons_pos cur x (p2 ++ b :: q) hc
        _ = mergeInto (cur.1, max cur.2 x.2) (b :: (p2 ++ q)) :=
            ih b hb hp2 (cur.1, max cur.2 x.2) q
        _ = mergeInto (cur.1, max (max cur.2 x.2) b.2) (p2 ++ q) :=
            mergeInto_cons_pos (cur.1, max cur.2 x.2) b (p2 ++ q) hcb2
        _ = mergeInto (cur.1, max (max cur.2 b.2) x.2) (p2 ++ q) := by rw [hmax]
        _ = mergeInto (cur.1, max cur.2 b.2) (x :: (p2 ++ q)) :=
            (mergeInto_cons_pos (cur.1, max cur.2 b.2) x (p2 ++ q) hcx2).symm
        _ = mergeInto cur (b :: ((x :: p2) ++ q)) :=
            (mergeInto_cons_pos cur b ((x :: p2) ++ q) hcb).symm
    · have hcb : ¬ b.1 ≤ cur.2 + 1 / 2 := by rw [← hx.1]; exact hc
      have hxb : b.1 ≤ x.2 + 1 / 2 := by
        rw [← hx.1]
        linarith [hx.2]
      have hbx : x.1 ≤ b.2 + 1 / 2 := by
        rw [hx.1]
        linarith [hb]
      calc mergeInto cur ((x :: p2) ++ b :: q)
          = cur :: mergeInto x (p2 ++ b :: q) :=
            mergeInto_cons_neg cur x (p2 ++ b :: q) hc
        _ = cur :: mergeInto x (b :: (p2 ++ q)) := by rw [ih b hb hp2 x q]
        _ = cur :: mergeInto (x.1, max x.2 b.2) (p2 ++ q) := by
            rw [mergeInto_cons_pos x b (p2 ++ q) hxb]
        _ = cur :: mergeInto (b.1, max b.2 x.2) (p2 ++ q) := by rw [hx.1, max_comm]
        _ = cur :: mergeInto b (x :: (p2 ++ q)) := by
            rw [mergeInto_cons_pos b x (p2 ++ q) hbx]
        _ = mergeInto cur (b :: ((x :: p2) ++ q)) :=
            (mergeInto_cons_neg cur b ((x :: p2) ++ q) hcb).symm

theorem mergeInto_perm_aux :
    ∀ (n : ℕ) (xs ys : List Seg), xs.length ≤ n → xs.Perm ys →
      xs.Pairwise startLE → ys.Pairwise startLE → (∀ x ∈ xs, x.1 ≤ x.2) →
      ∀ cur : Seg, mergeInto cur xs = mergeInto cur ys := by
  intro n
  induction n with
  | zero =>
    intro xs ys hlen hperm _ _ _ cur
    have hxs : xs = [] := List.length_eq_zero.mp (Nat.le_zero.mp hlen)
    subst hxs
    have hys : ys = [] := hperm.symm.eq_nil
    subst hys
    rfl
  | succ n ih =>
    intro xs ys hlen hperm hxs hys hwf cur
    rcases xs with _ | ⟨a, xs2⟩
    · have hys2 : ys = [] := hperm.symm.eq_nil
      subst hys2
      rfl
    rcases ys with _ | ⟨b, ys2⟩
    · exact absurd hperm.eq_nil (by simp)
    by_cases hab : a = b
    · subst hab
      have hperm2 := hperm.cons_inv
      have hxs2 := (List.pairwise_cons.mp hxs).2
      have hys2 := (List.pairwise_cons.mp hys).2
      have hwf2 : ∀ x ∈ xs2, x.1 ≤ x.2 :=
        fun x hx => hwf x (List.mem_cons_of_mem a hx)
      have hlen2 : xs2.length ≤ n := by
        simp only [List.length_cons] at hlen
        omega
      by_cases hc : a.1 ≤ cur.2 + 1 / 2
      · rw [mergeInto_cons_pos cur a xs2 hc, mergeInto_cons_pos cur a ys2 hc]
        exact ih xs2 ys2 hlen2 hperm2 hxs2 hys2 hwf2 _
      · rw [mergeInto_cons_neg cur a xs2 hc, mergeInto_cons_neg cur a ys2 hc]
        rw [ih xs2 ys2 hlen2 hperm2 hxs2 hys2 hwf2 a]
    · have hbxs : b ∈ xs2 := by
        have hb : b ∈ a :: xs2 := hperm.mem_iff.mpr (List.mem_cons_self b ys2)
        rcases List.mem_cons.mp hb with heq | hmem
        · exact absurd heq.symm hab
        · exact hmem
      obtain ⟨p, q, hx2⟩ := List.append_of_mem hbxs
      subst hx2
      have hays : a ∈ ys2 := by
        have ha : a ∈ b :: ys2 := hperm.mem_iff.mp (List.mem_cons_self a _)
        rcases List.mem_cons.mp ha with heq | hmem
        · exact absurd heq hab
        · exact hmem
      have hab1 : a.1 ≤ b.1 :=
        (List.pairwise_cons.mp hxs).1 b (by simp)
      have hba1 : b.1 ≤ a.1 := (List.pairwise_cons.mp hys).1 a hays
      have heq1 : a.1 = b.1 := le_antisymm hab1 hba1
      have hxs2pair : (p ++ b :: q).Pairwise startLE := (List.pairwise_cons.mp hxs).2
      have hpb : ∀ x ∈ p, x.1 ≤ b.1 := by
        intro x hx
        exact (List.pairwise_append.mp hxs2pair).2.2 x hx b (List.mem_cons_self b q)
      have hpa : ∀ x ∈ p, a.1 ≤ x.1 := by
        intro x hx
        exact (List.pairwise_cons.mp hxs).1 x (List.mem_append_left _ hx)
      have hpfacts : ∀ x ∈ a :: p, x.1 = b.1 ∧ x.1 ≤ x.2 := by
        intro x hx
        rcases List.mem_cons.mp hx with rfl | hx
        · exact ⟨heq1, hwf x (List.mem_cons_self x _)⟩
        · refine ⟨le_antisymm (hpb x hx) ?_, hwf x (List.mem_cons_of_mem a (List.mem_append_left _ hx))⟩
          rw [← heq1]
          exact hpa x hx
      have hbwf : b.1 ≤ b.2 :=
        hwf b (List.mem_cons_of_mem a (List.mem_append_right _ (List.mem_cons_self b q)))
      have hbub := mergeInto_bubble (a :: p) b hbwf hpfacts cur q
      have hpermA : (a :: (p ++ q)).Perm ys2 := by
        have h1 : ((a :: p) ++ b :: q).Perm (b :: ((a :: p) ++ q)) := List.perm_middle
        exact (h1.symm.trans hperm).cons_inv
      have hsubA : List.Sublist (a :: (p ++ q)) (a :: (p ++ b :: q)) :=
        List.Sublist.cons₂ a ((List.sublist_cons_self b q).append_left p)
      have hApair : (a :: (p ++ q)).Pairwise startLE := hxs.sublist hsubA
      have hAwf : ∀ x ∈ a :: (p ++ q), x.1 ≤ x.2 := fun x hx => hwf x (hsubA.subset hx)
      have hlenA : (a :: (p ++ q)).length ≤ n := by
        simp only [List.length_cons, List.length_append] at hlen ⊢
        omega
      have hys2pair := (List.pairwise_cons.mp hys).2
      rw [show a :: (p ++ b :: q) = (a :: p) ++ b :: q from rfl, hbub]
      by_cases hc : b.1 ≤ cur.2 + 1 / 2
      · rw [mergeInto_cons_pos cur b ((a :: p) ++ q) hc,
          mergeInto_cons_pos cur b ys2 hc]
        exact ih (a :: (p ++ q)) ys2 hlenA hpermA hApair hys2pair hAwf _
      · rw [mergeInto_cons_neg cur b ((a :: p) ++ q) hc,
          mergeInto_cons_neg cur b ys2 hc]
        exact congrArg (cur :: ·)
          (ih (a :: (p ++ q)) ys2 hlenA hpermA hApair hys2pair hAwf b)

theorem mergeTop_perm (xs ys : List Seg) (hperm : xs.Perm ys)
    (hxs : xs.Pairwise startLE) (hys : ys.Pairwise startLE)
    (hwf : ∀ x ∈ xs, x.1 ≤ x.2) : mergeTop xs = mergeTop ys := by
  rcases xs with _ | ⟨a, xs2⟩
  · have : ys = [] := hperm.symm.eq_nil
    rw [this]
  rcases ys with _ | ⟨b, ys2⟩
  · exact absurd hperm.eq_nil (by simp)
  by_cases hab : a = b
  · subst hab
    exact mergeInto_perm_aux xs2.length xs2 ys2 le_rfl hperm.cons_inv
      (List.pairwise_cons.mp hxs).2 (List.pairwise_cons.mp hys).2
      (fun x hx => hwf x (List.mem_cons_of_mem a hx)) a
  · have hbxs : b ∈ xs2 := by
      have hb : b ∈ a :: xs2 := hperm.mem_iff.mpr (List.mem_cons_self b ys2)
      rcases List.mem_cons.mp hb with heq | hmem
      · exact absurd heq.symm hab
      · exact hmem
    obtain ⟨p, q, hx2⟩ := List.append_of_mem hbxs
    subst hx2
    have hays : a ∈ ys2 := by
      have ha : a ∈ b :: ys2 := hperm.mem_iff.mp (List.mem_cons_self a _)
      rcases List.mem_cons.mp ha with heq | hmem
      · exact absurd heq hab
      · exact hmem
    have hab1 : a.1 ≤ b.1 := (List.pairwise_cons.mp hxs).1 b (by simp)
    have hba1 : b.1 ≤ a.1 := (List.pairwise_cons.mp hys).1 a hays
    have heq1 : a.1 = b.1 := le_antisymm hab1 hba1
    have hawf : a.1 ≤ a.2 := hwf a (List.mem_cons_self a _)
    have hbwf : b.1 ≤ b.2 :=
      hwf b (List.mem_cons_of_mem a (List.mem_append_right _ (List.mem_cons_self b q)))
    have hxs2pair : (p ++ b :: q).Pairwise startLE := (List.pairwise_cons.mp hxs).2
    have hpfacts : ∀ x ∈ p, x.1 = b.1 ∧ x.1 ≤ x.2 := by
      intro x hx
      have h1 : x.1 ≤ b.1 :=
        (List.pairwise_append.mp hxs2pair).2.2 x hx b (List.mem_cons_self b q)
      have h2 : a.1 ≤ x.1 := (List.pairwise_cons.mp hxs).1 x (List.mem_append_left _ hx)
      refine ⟨le_antisymm h1 ?_, hwf x (List.mem_cons_of_mem a (List.mem_append_left _ hx))⟩
      rw [← heq1]
      exact h2
    have hba2 : b.1 ≤ a.2 + 1 / 2 := by
      rw [← heq1]
      linarith [hawf]
    have hab2 : a.1 ≤ b.2 + 1 / 2 := by
      rw [heq1]
      linarith [hbwf]
    have hpermA : (a :: (p ++ q)).Perm ys2 := by
      have h1 : ((a :: p) ++ b :: q).Perm (b :: ((a :: p) ++ q)) := List.perm_middle
      exact (h1.symm.trans hperm).cons_inv
    have hsubA : List.Sublist (a :: (p ++ q)) (a :: (p ++ b :: q)) :=
      List.Sublist.cons₂ a ((List.sublist_cons_self b q).append_left p)
    have hApair : (a :: (p ++ q)).Pairwise startLE := hxs.sublist hsubA
    have hAwf : ∀ x ∈ a :: (p ++ q), x.1 ≤ x.2 := fun x hx => hwf x (hsubA.subset hx)
    have hys2pair := (List.pairwise_cons.mp hys).2
    calc mergeTop (a :: (p ++ b :: q))
        = mergeInto a (p ++ b :: q) := rfl
      _ = mergeInto a (b :: (p ++ q)) := mergeInto_bubble p b hbwf hpfacts a q
      _ = mergeInto (a.1, max a.2 b.2) (p ++ q) := mergeInto_cons_pos a b (p ++ q) hba2
      _ = mergeInto (b.1, max b.2 a.2) (p ++ q) := by rw [heq1, max_comm]
      _ = mergeInto b (a :: (p ++ q)) := (mergeInto_cons_pos b a (p ++ q) hab2).symm
      _ = mergeInto b ys2 :=
          mergeInto_perm_aux (a :: (p ++ q)).length (a :: (p ++ q)) ys2 le_rfl
            hpermA hApair hys2pair hAwf b
      _ = mergeTop (b :: ys2) := rfl

theorem mergeSegmentsArray_perm (L P : List Seg) (hwf : ∀ s ∈ L, s.1 ≤ s.2)
    (h : L.Perm P) : mergeSegmentsArray L = mergeSegmentsArray P := by
  have hlen := h.length_eq
  by_cases hl : L.length ≤ 1
  · rw [mergeSegmentsArray, if_pos hl, mergeSegmentsArray, if_pos (hlen ▸ hl)]
    rcases L with _ | ⟨a, _ | ⟨b, t⟩⟩
    · exact (List.perm_nil.mp h.symm).symm
    · exact (List.perm_singleton.mp h.symm).symm
    · simp at hl
  · rw [mergeSegmentsArray, if_neg hl, mergeSegmentsArray, if_neg (hlen ▸ hl)]
    refine mergeTop_perm _ _ ?_ (List.sorted_insertionSort _ _) (List.sorted_insertionSort _ _) ?_
    · exact (List.perm_insertionSort _ _).trans (h.trans (List.perm_insertionSort _ _).symm)
    · exact fun x hx => hwf x ((List.perm_insertionSort _ _).mem_iff.mp hx)

theorem aliasMutate_self (w : List Seg) (hpair : w.Pairwise startLE)
    (hch : w.Chain' farApart) : aliasMutate w w = w := by
  rcases w with _ | ⟨s0, rest⟩
  · rfl
  · by_cases h : (s0 :: rest).length ≤ 1
    · unfold aliasMutate
      rw [if_pos h]
    · have hsort : sortSegments (s0 :: rest) = s0 :: rest :=
        List.Sorted.insertionSort_eq hpair
      unfold aliasMutate
      rw [if_neg h, hsort]
      have hfge : firstGroupEnd s0 rest = s0.2 := by
        rcases rest with _ | ⟨s1, rest2⟩
        · rfl
        · have hfar : farApart s0 s1 := (List.chain'_cons.mp hch).1
          unfold farApart at hfar
          rw [firstGroupEnd, if_neg (not_le.mpr hfar)]
      show setEndAtFirstMin s0.1 (firstGroupEnd s0 rest) (s0 :: rest) = s0 :: rest
      rw [hfge, setEndAtFirstMin, if_pos rfl]

theorem saveProgressNow_fields (t : Tracker) :
    (saveProgressNow t).1.videoId = t.videoId ∧
    (saveProgressNow t).1.duration = t.duration ∧
    (saveProgressNow t).1.lastRecordedTime = t.lastRecordedTime ∧
    (saveProgressNow t).1.currentSegmentStart = t.currentSegmentStart ∧
    (saveProgressNow t).1.isTracking = t.isTracking ∧
    (saveProgressNow t).1.saveTimeout = false ∧
    (saveProgressNow t).1.isComplete = t.isComplete ∧
    (saveProgressNow t).1.speedWarningShown = t.speedWarningShown ∧
    (saveProgressNow t).1.isSpeedExceeded = t.isSpeedExceeded :=
  ⟨rfl, rfl, rfl, rfl, rfl, rfl, rfl, rfl, rfl⟩

theorem saveProgressNow_noOpen (t : Tracker)
    (hcs : ¬ (0 ≤ t.currentSegmentStart ∧ t.currentSegmentStart < t.lastRecordedTime))
    (hpair : t.watchedSegments.Pairwise startLE)
    (hch : t.watchedSegments.Chain' farApart) :
    (saveProgressNow t).1.watchedSegments = t.watchedSegments ∧
    (saveProgressNow t).2.watchedSegments = mergeSegmentsArray t.watchedSegments ∧
    (saveProgressNow t).2.totalWatched =
      calculateTotalWatched (mergeSegmentsArray t.watchedSegments) := by
  have hts : (t.watchedSegments ++
      (if 0 ≤ t.currentSegmentStart ∧ t.currentSegmentStart < t.lastRecordedTime
       then [(t.currentSegmentStart, t.lastRecordedTime)] else [])) = t.watchedSegments := by
    rw [if_neg hcs, List.append_nil]
  refine ⟨?_, ?_, ?_⟩
  · simp only [saveProgressNow, hts]
    exact aliasMutate_self _ hpair hch
  · simp only [saveProgressNow, hts]
  · simp only [saveProgressNow, hts]

theorem finalize_cs (t : Tracker) : (finalizeCurrentSegment t).currentSegmentStart = -1 := rfl

theorem finalize_fields (t : Tracker) :
    (finalizeCurrentSegment t).videoId = t.videoId ∧
    (finalizeCurrentSegment t).duration = t.duration ∧
    (finalizeCurrentSegment t).lastRecordedTime = t.lastRecordedTime ∧
    (finalizeCurrentSegment t).isTracking = t.isTracking ∧
    (finalizeCurrentSegment t).saveTimeout = t.saveTimeout ∧
    (finalizeCurrentSegment t).isComplete = t.isComplete ∧
    (finalizeCurrentSegment t).speedWarningShown = t.speedWarningShown ∧
    (finalizeCurrentSegment t).isSpeedExceeded = t.isSpeedExceeded := by
  unfold finalizeCurrentSegment mergeSegments
  split
  · exact ⟨rfl, rfl, rfl, rfl, rfl, rfl, rfl, rfl⟩
  · exact ⟨rfl, rfl, rfl, rfl, rfl, rfl, rfl, rfl⟩

theorem finalize_watched_pos (t : Tracker)
    (h : 0 ≤ t.currentSegmentStart ∧ t.currentSegmentStart < t.lastRecordedTime) :
    (finalizeCurrentSegment t).watchedSegments =
      mergeSegmentsArray (t.watchedSegments ++ [(t.currentSegmentStart, t.lastRecordedTime)]) := by
  unfold finalizeCurrentSegment mergeSegments
  rw [if_pos h]

theorem finalize_watched_neg (t : Tracker)
    (h : ¬ (0 ≤ t.currentSegmentStart ∧ t.currentSegmentStart < t.lastRecordedTime)) :
    (finalizeCurrentSegment t).watchedSegments = t.watchedSegments := by
  unfold finalizeCurrentSegment mergeSegments
  rw [if_neg h]

theorem canonical_pairwise_chain (l : List Seg) (h : Canonical l) :
    l.Pairwise startLE ∧ l.Chain' farApart :=
  ⟨h.2.1.imp (fun hr => le_of_lt hr), h.2.2.2⟩

theorem canonical_of_merge_of_wf (l : List Seg) (h : Canonical l) (s : Seg)
    (hs : s.1 < s.2) : Canonical (mergeSegmentsArray (l ++ [s])) := by
  apply mergeSegmentsArray_canonical
  intro x hx
  rcases List.mem_append.mp hx with hx | hx
  · exact h.1 x hx
  · rw [List.mem_singleton.mp hx]
    exact hs

theorem foldl_total_le (l : List Seg) :
    ∀ a : ℚ, (∀ s ∈ l, s.1 ≤ s.2) →
      a ≤ l.foldl (fun total s => total + (s.2 - s.1)) a := by
  induction l with
  | nil => intro a _; exact le_refl a
  | cons s rest ih =>
    intro a h
    have h1 : a ≤ a + (s.2 - s.1) := by
      have := h s (List.mem_cons_self s rest)
      linarith
    rw [List.foldl_cons]
    exact le_trans h1 (ih _ (fun x hx => h x (List.mem_cons_of_mem _ hx)))

theorem calculateTotalWatched_nonneg (l : List Seg) (h : ∀ s ∈ l, s.1 ≤ s.2) :
    0 ≤ calculateTotalWatched l :=
  foldl_total_le l 0 h

theorem handlePause_eq (t : Tracker) :
    handlePause t = saveProgressNow (finalizeCurrentSegment t) := rfl

theorem handleEnded_eq (t : Tracker) :
    handleEnded t =
      ((checkCompletion (saveProgressNow (finalizeCurrentSegment t)).1).1,
       (saveProgressNow (finalizeCurrentSegment t)).2 ::
         (checkCompletion (saveProgressNow (finalizeCurrentSegment t)).1).2.1.toList,
       (checkCompletion (saveProgressNow (finalizeCurrentSegment t)).1).2.2) := rfl

theorem destroy_eq (t : Tracker) :
    destroy t =
      ({ (saveProgressNow (finalizeCurrentSegment { t with isTracking := false })).1
          with saveTimeout := false },
       (saveProgressNow (finalizeCurrentSegment { t with isTracking := false })).2) := rfl

/-- C2: merging an already-merged list changes nothing: for every list `L` of
intervals, `mergeSegmentsArray (mergeSegmentsArray L) = mergeSegmentsArray L`. -/
theorem C2_mergeSegmentsArray_idempotent (L : List Seg) :
    mergeSegmentsArray (mergeSegmentsArray L) = mergeSegmentsArray L :=
  mergeSegmentsArray_idem L

/-- C3: for every list `L` of intervals (pairs with `start < end`) and every
permutation `P` of `L`, `mergeSegmentsArray` gives the same merged list, and
therefore the total watched time — the sum of `end - start` over the merged
result — is the same for every input ordering. -/
theorem C3_merge_perm_invariant (L P : List Seg) (hwf : ∀ s ∈ L, s.1 < s.2)
    (hperm : L.Perm P) :
    mergeSegmentsArray L = mergeSegmentsArray P ∧
    calculateTotalWatched (mergeSegmentsArray L) =
      calculateTotalWatched (mergeSegmentsArray P) := by
  have h := mergeSegmentsArray_perm L P (fun s hs => le_of_lt (hwf s hs)) hperm
  exact ⟨h, by rw [h]⟩

/-- Witness for C3 at the concrete pair of permuted lists
`[(0,1), (2,3)]` and `[(2,3), (0,1)]`. -/
theorem C3_witness :
    mergeSegmentsArray [((0 : ℚ), 1), (2, 3)] = mergeSegmentsArray [((2 : ℚ), 3), (0, 1)] :=
  (C3_merge_perm_invariant [((0 : ℚ), 1), (2, 3)] [((2 : ℚ), 3), (0, 1)]
    (by decide) (List.Perm.swap _ _ _)).1

/-- C9: destroying a tracker with a non-empty open interval persists a record
whose segments are the merge of the stored segments with that interval (so the
partial interval is flushed), with the matching total, and leaves no pending
debounced-save timer. -/
theorem C9_destroy_flushes (t : Tracker)
    (h1 : 0 ≤ t.currentSegmentStart) (h2 : t.currentSegmentStart < t.lastRecordedTime) :
    (destroy t).2.watchedSegments =
      mergeSegmentsArray (t.watchedSegments ++
        [(t.currentSegmentStart, t.lastRecordedTime)]) ∧
    (destroy t).2.totalWatched =
      calculateTotalWatched (mergeSegmentsArray (t.watchedSegments ++
        [(t.currentSegmentStart, t.lastRecordedTime)])) ∧
    (destroy t).1.saveTimeout = false := by
  have hW : (finalizeCurrentSegment { t with isTracking := false }).watchedSegments =
      mergeSegmentsArray (t.watchedSegments ++
        [(t.currentSegmentStart, t.lastRecordedTime)]) :=
    finalize_watched_pos { t with isTracking := false } ⟨h1, h2⟩
  have hcs2 : ¬ (0 ≤ (finalizeCurrentSegment { t with isTracking := false }).currentSegmentStart ∧
      (finalizeCurrentSegment { t with isTracking := false }).currentSegmentStart <
        (finalizeCurrentSegment { t with isTracking := false }).lastRecordedTime) := by
    rw [finalize_cs]
    intro hcon
    have := hcon.1
    norm_num at this
  have hsc := mergeSegmentsArray_sorted_chain
    (t.watchedSegments ++ [(t.currentSegmentStart, t.lastRecordedTime)])
  have hpair :
      (finalizeCurrentSegment
        { t with isTracking := false }).watchedSegments.Pairwise startLE := by
    rw [hW]; exact hsc.1
  have hch :
      (finalizeCurrentSegment
        { t with isTracking := false }).watchedSegments.Chain' farApart := by
    rw [hW]; exact hsc.2
  have hs := saveProgressNow_noOpen (finalizeCurrentSegment { t with isTracking := false })
    hcs2 hpair hch
  rw [destroy_eq]
  refine ⟨?_, ?_, rfl⟩
  · show (saveProgressNow (finalizeCurrentSegment
        { t with isTracking := false })).2.watchedSegments = _
    rw [hs.2.1, hW, mergeSegmentsArray_idem]
  · show (saveProgressNow (finalizeCurrentSegment
        { t with isTracking := false })).2.totalWatched = _
    rw [hs.2.2, hW, mergeSegmentsArray_idem]

/-- Witness for C9 at a tracker with stored segment `[0, 1]` and open interval
`[5, 8]`. -/
theorem C9_witness :
    (destroy { baseT with
        watchedSegments := [(0, 1)], currentSegmentStart := 5,
        lastRecordedTime := 8 }).1.saveTimeout = false ∧
    (destroy { baseT with
        watchedSegments := [(0, 1)], currentSegmentStart := 5,
        lastRecordedTime := 8 }).2.watchedSegments =
      mergeSegmentsArray ([((0 : ℚ), 1)] ++ [(5, 8)]) := by
  have h := C9_destroy_flushes
    { baseT with
      watchedSegments := [(0, 1)], currentSegmentStart := 5,
      lastRecordedTime := 8 } (by decide) (by decide)
  exact ⟨h.2.2, h.1⟩

/-- C1: the claim fails on the code.  `saveProgressNow` does persist the merge
of the stored segments with the open interval, and does leave
`currentSegmentStart` and `lastRecordedTime` unchanged — but the "peek" merge
is not pure for the segment list: the sort's shallow copy shares the inner
`[start, end]` arrays, and the merge loop's `last[1] = Math.max(...)` writes
through `sorted[0]` into the tracker's own `watchedSegments`.  At `c1t` (stored
`[[0, 2]]`, open interval `[2, 3]`) the stored segment's endpoint becomes 3. -/
theorem C1_saveProgressNow_aliasing_bug :
    (saveProgressNow c1t).2.watchedSegments =
      mergeSegmentsArray (c1t.watchedSegments ++
        [(c1t.currentSegmentStart, c1t.lastRecordedTime)]) ∧
    (saveProgressNow c1t).1.currentSegmentStart = c1t.currentSegmentStart ∧
    (saveProgressNow c1t).1.lastRecordedTime = c1t.lastRecordedTime ∧
    c1t.watchedSegments = [(0, 2)] ∧
    (saveProgressNow c1t).1.watchedSegments = [(0, 3)] := by
  refine ⟨?_, rfl, rfl, rfl, ?_⟩
  · norm_num [saveProgressNow, c1t, baseT]
  · norm_num [saveProgressNow, c1t, baseT, aliasMutate, mergeSegmentsArray, mergeTop,
      sortSegments, List.insertionSort, List.orderedInsert, startLE, mergeInto,
      firstGroupEnd, setEndAtFirstMin]

theorem scheduleSave_watched (t : Tracker) :
    (scheduleSave t).watchedSegments = t.watchedSegments := by
  rw [scheduleSave_eq]

/-- C8: the spec's intent — a malformed persisted string is treated as an
absent record on every read path — is broken by a slip in the code: on the
fallback taken when the chrome backend reports an error (storageUtils.ts line
96), `JSON.parse(data)` runs on any non-empty stored string with no
surrounding try/catch, so a malformed entry throws instead of yielding `null`;
the direct localStorage path (lines 105-111) does catch the parse failure and
returns `null`.  (The empty string is falsy, so `data ? ... : null` resolves
`null` for it on both paths without parsing.) -/
theorem C8_getProgress_malformed (parse : String → Option VideoProgress)
    (s : String) (hne : s ≠ "") (hs : parse s = none) :
    getProgressM parse
      { chromeAvailable := true, chromeError := true, chromeValue := none,
        localValue := some s } = .error () ∧
    getProgressM parse
      { chromeAvailable := false, chromeError := false, chromeValue := none,
        localValue := some s } = .ok none := by
  constructor <;> simp [getProgressM, hne, hs]

/-- Witness for C8 at the non-empty malformed string consisting of the single
character x, with a parse function that rejects every string. -/
theorem C8_witness :
    getProgressM (fun _ => none)
      { chromeAvailable := true, chromeError := true, chromeValue := none,
        localValue := some (String.mk ['x']) } = .error () :=
  (C8_getProgress_malformed (fun _ => none) (String.mk ['x']) (by decide) rfl).1

/-- C4: gap classification of `handleTimeUpdate` for an actively tracking,
not-complete, not-speed-exceeded state with both trackers set.  A gap strictly
between 0 and 1 s only advances `lastRecordedTime`; a gap of at least 1 s or a
negative gap closes the open interval when it is non-empty, merges it into the
segment set, and restarts both trackers at `currentTime`. -/
theorem C4_handleTimeUpdate_gap_cases (t : Tracker) (c : ℚ)
    (htr : t.isTracking = true) (hco : t.isComplete = false)
    (hsp : t.isSpeedExceeded = false)
    (hlrt : 0 ≤ t.lastRecordedTime) (hcs : 0 ≤ t.currentSegmentStart) :
    (0 < c - t.lastRecordedTime → c - t.lastRecordedTime < GAP_THRESHOLD →
      (handleTimeUpdate t c).lastRecordedTime = c ∧
      (handleTimeUpdate t c).currentSegmentStart = t.currentSegmentStart ∧
      (handleTimeUpdate t c).watchedSegments = t.watchedSegments) ∧
    (GAP_THRESHOLD ≤ c - t.lastRecordedTime ∨ c - t.lastRecordedTime < 0 →
      (handleTimeUpdate t c).currentSegmentStart = c ∧
      (handleTimeUpdate t c).lastRecordedTime = c ∧
      (handleTimeUpdate t c).watchedSegments =
        (if t.currentSegmentStart < t.lastRecordedTime then
          mergeSegmentsArray (t.watchedSegments ++
            [(t.currentSegmentStart, t.lastRecordedTime)])
         else t.watchedSegments)) := by
  have hb1 : ¬ ((!t.isTracking || t.isComplete) = true) := by
    rw [htr, hco]
    simp
  have hb2 : ¬ (t.isSpeedExceeded = true) := by
    rw [hsp]
    simp
  simp only [handleTimeUpdate]
  rw [if_neg hb1, if_neg hb2, if_neg (not_lt.mpr hlrt)]
  constructor
  · intro hg1 hg2
    rw [if_pos ⟨hg1, hg2⟩, scheduleSave_eq]
    exact ⟨rfl, rfl, rfl⟩
  · intro hg
    have hg1 : ¬ (0 < c - t.lastRecordedTime ∧ c - t.lastRecordedTime < GAP_THRESHOLD) := by
      rcases hg with hg | hg
      · intro hcon
        linarith [hcon.2]
      · intro hcon
        linarith [hcon.1]
    rw [if_neg hg1, if_pos hg, scheduleSave_eq]
    by_cases hmerge : t.currentSegmentStart < t.lastRecordedTime
    · rw [if_pos (⟨hcs, hmerge⟩ :
        0 ≤ t.currentSegmentStart ∧ t.currentSegmentStart < t.lastRecordedTime),
        if_pos hmerge]
      exact ⟨rfl, rfl, rfl⟩
    · rw [if_neg (fun hcon => hmerge hcon.2), if_neg hmerge]
      exact ⟨rfl, rfl, rfl⟩

/-- Witness for C4 at a tracker with `lastRecordedTime = 1`,
`currentSegmentStart = 0` and a time-update at 3 (gap 2, a forward skip). -/
theorem C4_witness :
    (handleTimeUpdate { baseT with
        lastRecordedTime := 1, currentSegmentStart := 0 } 3).currentSegmentStart = 3 ∧
    (handleTimeUpdate { baseT with
        lastRecordedTime := 1, currentSegmentStart := 0 } 3).lastRecordedTime = 3 := by
  have h := C4_handleTimeUpdate_gap_cases
    { baseT with lastRecordedTime := 1, currentSegmentStart := 0 } 3
    rfl rfl rfl (by decide) (by decide)
  have h2 := h.2 (Or.inl (by norm_num [GAP_THRESHOLD, baseT]))
  exact ⟨h2.1, h2.2.1⟩

theorem finalize_canonical (t : Tracker) (h : Canonical t.watchedSegments) :
    Canonical (finalizeCurrentSegment t).watchedSegments := by
  by_cases hg : 0 ≤ t.currentSegmentStart ∧ t.currentSegmentStart < t.lastRecordedTime
  · rw [finalize_watched_pos t hg]
    exact canonical_of_merge_of_wf _ h _ hg.2
  · rw [finalize_watched_neg t hg]
    exact h

theorem save_after_finalize (u : Tracker) (hcs : u.currentSegmentStart = -1)
    (hc : Canonical u.watchedSegments) :
    (saveProgressNow u).1.watchedSegments = u.watchedSegments ∧
    Canonical ((saveProgressNow u).1.watchedSegments) := by
  have hg : ¬ (0 ≤ u.currentSegmentStart ∧ u.currentSegmentStart < u.lastRecordedTime) := by
    rw [hcs]
    intro hcon
    have := hcon.1
    norm_num at this
  obtain ⟨hp, hch⟩ := canonical_pairwise_chain _ hc
  have hs := (saveProgressNow_noOpen u hg hp hch).1
  exact ⟨hs, hs ▸ hc⟩

/-- C5: assuming the segment set is canonical (as it is after loading a record
produced by the merge), every event handler that can touch `watchedSegments`
leaves it canonical: every interval has `start < end`, intervals are strictly
sorted by start, pairwise non-overlapping, and adjacent intervals are more
than the 0.5 s merge tolerance apart. -/
theorem C5_canonical_preserved (t : Tracker) (h : Canonical t.watchedSegments)
    (c r : ℚ) :
    Canonical (handleTimeUpdate t c).watchedSegments ∧
    Canonical (handleSeeked t c).watchedSegments ∧
    Canonical ((handleRateChange t r c).1).watchedSegments ∧
    Canonical ((handlePause t).1).watchedSegments ∧
    Canonical ((handleEnded t).1).watchedSegments ∧
    Canonical ((destroy t).1).watchedSegments := by
  refine ⟨?_, ?_, ?_, ?_, ?_, ?_⟩
  · simp only [handleTimeUpdate]
    split
    · exact h
    split
    · exact h
    split
    · exact h
    rw [scheduleSave_watched]
    split
    · exact h
    split
    · split
      · next hg => exact canonical_of_merge_of_wf _ h _ hg.2
      · exact h
    · exact h
  · simp only [handleSeeked]
    split
    · next hg => exact canonical_of_merge_of_wf _ h _ hg.2
    · exact h
  · simp only [handleRateChange]
    repeat' split
    all_goals first
      | exact h
      | exact finalize_canonical t h
  · rw [handlePause_eq]
    exact (save_after_finalize _ (finalize_cs t) (finalize_canonical t h)).2
  · rw [handleEnded_eq]
    have hsave := save_after_finalize (finalizeCurrentSegment t) (finalize_cs t)
      (finalize_canonical t h)
    simp only [checkCompletion]
    split
    · exact hsave.2
    split
    · have hcs3 : ({ (saveProgressNow (finalizeCurrentSegment t)).1 with
          isComplete := true } : Tracker).currentSegmentStart = -1 := by
        show (saveProgressNow (finalizeCurrentSegment t)).1.currentSegmentStart = -1
        rw [(saveProgressNow_fields _).2.2.2.1]
        exact finalize_cs t
      exact (save_after_finalize _ hcs3 hsave.2).2
    · exact hsave.2
  · rw [destroy_eq]
    have h2 : Canonical ({ t with isTracking := false } : Tracker).watchedSegments := h
    exact (save_after_finalize _ (finalize_cs _) (finalize_canonical _ h2)).2

/-- Witness for C5 at a canonical two-segment state with open interval
`[4, 5]`, a time-update at 7 and a rate-change to 3x. -/
theorem C5_witness :
    Canonical ((handlePause { baseT with
        watchedSegments := [(0, 2), (4, 6)], currentSegmentStart := 4,
        lastRecordedTime := 5 }).1.watchedSegments) := by
  have hc : Canonical (({ baseT with
      watchedSegments := [(0, 2), (4, 6)], currentSegmentStart := 4,
      lastRecordedTime := 5 } : Tracker).watchedSegments) := by
    norm_num [Canonical, farApart, baseT, List.pairwise_cons, List.chain'_cons]
  exact (C5_canonical_preserved _ hc 7 3).2.2.2.1

theorem handleTimeUpdate_exceeded (t : Tracker) (c : ℚ)
    (hsp : t.isSpeedExceeded = true) : handleTimeUpdate t c = t := by
  unfold handleTimeUpdate
  by_cases h1 : (!t.isTracking || t.isComplete) = true
  · rw [if_pos h1]
  · rw [if_neg h1, if_pos hsp]

theorem foldl_handleTimeUpdate_exceeded (t : Tracker)
    (hsp : t.isSpeedExceeded = true) :
    ∀ cs : List ℚ, List.foldl handleTimeUpdate t cs = t := by
  intro cs
  induction cs with
  | nil => rfl
  | cons c0 cs2 ih =>
    rw [List.foldl_cons, handleTimeUpdate_exceeded t c0 hsp]
    exact ih

/-- C6: while `isSpeedExceeded` every sequence of time-updates leaves the state
entirely unchanged (so zero watched time is added); a rate-change back to at
most 2x exits the state, resets both trackers to the current playhead and
resets the warning flag; the warning toast is shown exactly once per
continuous excursion: it fires when the warning flag is clear, sets the flag,
never fires while the flag is set, and the flag is cleared exactly by a
rate-change to at most 2x. -/
theorem C6_speed_exceeded (t : Tracker) (r c : ℚ) (cs : List ℚ) :
    (t.isSpeedExceeded = true → List.foldl handleTimeUpdate t cs = t) ∧
    (MAX_PLAYBACK_RATE < r →
      (handleRateChange t r c).1.isSpeedExceeded = true ∧
      (t.speedWarningShown = false →
        (handleRateChange t r c).2 = [Notice.speedWarning] ∧
        (handleRateChange t r c).1.speedWarningShown = true) ∧
      (t.speedWarningShown = true → (handleRateChange t r c).2 = [])) ∧
    (r ≤ MAX_PLAYBACK_RATE →
      (handleRateChange t r c).1.speedWarningShown = false ∧
      (t.isSpeedExceeded = true →
        (handleRateChange t r c).1.isSpeedExceeded = false ∧
        (handleRateChange t r c).1.currentSegmentStart = c ∧
        (handleRateChange t r c).1.lastRecordedTime = c ∧
        (handleRateChange t r c).1.watchedSegments = t.watchedSegments ∧
        (handleRateChange t r c).2 = [Notice.resumed])) := by
  refine ⟨fun hsp => foldl_handleTimeUpdate_exceeded t hsp cs, fun hr => ?_, fun hr => ?_⟩
  · simp only [handleRateChange]
    rw [if_pos hr]
    by_cases hexc : t.isSpeedExceeded = true
    · rw [if_pos hexc]
      by_cases hsh : t.speedWarningShown = true
      · rw [if_pos hsh]
        refine ⟨hexc, fun hcon => ?_, fun _ => rfl⟩
        rw [hcon] at hsh
        exact absurd hsh (by decide)
      · rw [if_neg hsh]
        exact ⟨hexc, fun _ => ⟨rfl, rfl⟩, fun hcon => absurd hcon hsh⟩
    · rw [if_neg hexc]
      dsimp only
      rw [(finalize_fields t).2.2.2.2.2.2.1]
      by_cases hsh : t.speedWarningShown = true
      · rw [if_pos hsh]
        refine ⟨rfl, fun hcon => ?_, fun _ => rfl⟩
        rw [hcon] at hsh
        exact absurd hsh (by decide)
      · rw [if_neg hsh]
        exact ⟨rfl, fun _ => ⟨rfl, rfl⟩, fun hcon => absurd hcon hsh⟩
  · simp only [handleRateChange]
    rw [if_neg (not_lt.mpr hr)]
    by_cases hexc : t.isSpeedExceeded = true
    · rw [if_pos hexc]
      exact ⟨rfl, fun _ => ⟨rfl, rfl, rfl, rfl, rfl⟩⟩
    · rw [if_neg hexc]
      exact ⟨rfl, fun hcon => absurd hcon hexc⟩

/-- Witness for C6 at a speed-exceeded state: three time-updates are all
ignored, and a rate-change back to 1x resumes tracking. -/
theorem C6_witness :
    List.foldl handleTimeUpdate { baseT with
      isSpeedExceeded := true, speedWarningShown := true } [1, 2, 3] =
      { baseT with isSpeedExceeded := true, speedWarningShown := true } ∧
    (handleRateChange { baseT with
      isSpeedExceeded := true, speedWarningShown := true } 1 7).1.isSpeedExceeded = false := by
  have h := C6_speed_exceeded
    { baseT with isSpeedExceeded := true, speedWarningShown := true } 1 7 [1, 2, 3]
  exact ⟨h.1 rfl, ((h.2.2 (by norm_num [MAX_PLAYBACK_RATE])).2 rfl).1⟩

theorem checkCompletion_complete (u : Tracker) (hc : u.isComplete = true) :
    checkCompletion u = (u, none, []) := by
  unfold checkCompletion
  rw [if_pos (Or.inl hc)]

theorem checkCompletion_spec (u : Tracker) (hc : u.isComplete = false) :
    ((checkCompletion u).1.isComplete = true ↔
      (0 < u.duration ∧ COMPLETION_THRESHOLD ≤
        calculateTotalWatched u.watchedSegments / u.duration)) ∧
    ((checkCompletion u).2.2 = [Notice.completed] ↔
      (0 < u.duration ∧ COMPLETION_THRESHOLD ≤
        calculateTotalWatched u.watchedSegments / u.duration)) ∧
    ((checkCompletion u).1.isComplete = true →
      (checkCompletion u).2.1.toList.length = 1) ∧
    ((checkCompletion u).1.isComplete = false →
      (checkCompletion u).2.1 = none ∧ (checkCompletion u).2.2 = []) := by
  simp only [checkCompletion]
  by_cases hd : u.duration ≤ 0
  · rw [if_pos (Or.inr hd)]
    refine ⟨⟨fun hcon => ?_, fun hcon => ?_⟩, ⟨fun hcon => ?_, fun hcon => ?_⟩,
      fun hcon => ?_, fun _ => ⟨rfl, rfl⟩⟩
    · rw [hc] at hcon
      exact absurd hcon (by decide)
    · linarith [hcon.1]
    · simp at hcon
    · linarith [hcon.1]
    · rw [hc] at hcon
      exact absurd hcon (by decide)
  · have hcond : ¬ (u.isComplete = true ∨ u.duration ≤ 0) := by
      intro hcon
      rcases hcon with hcon | hcon
      · rw [hc] at hcon
        exact absurd hcon (by decide)
      · exact hd hcon
    rw [if_neg hcond]
    by_cases hth : COMPLETION_THRESHOLD ≤ calculateTotalWatched u.watchedSegments / u.duration
    · rw [if_pos hth]
      refine ⟨⟨fun _ => ⟨not_le.mp hd, hth⟩, fun _ => rfl⟩,
        ⟨fun _ => ⟨not_le.mp hd, hth⟩, fun _ => rfl⟩, fun _ => rfl, fun hcon => ?_⟩
      have hcon2 : (true : Bool) = false := hcon
      exact absurd hcon2 (by decide)
    · rw [if_neg hth]
      refine ⟨⟨fun hcon => ?_, fun hcon => absurd hcon.2 hth⟩,
        ⟨fun hcon => ?_, fun hcon => absurd hcon.2 hth⟩,
        fun hcon => ?_, fun _ => ⟨rfl, rfl⟩⟩
      · rw [hc] at hcon
        exact absurd hcon (by decide)
      · simp at hcon
      · rw [hc] at hcon
        exact absurd hcon (by decide)

theorem handleSeeked_isComplete (t : Tracker) (c : ℚ) :
    (handleSeeked t c).isComplete = t.isComplete := by
  unfold handleSeeked mergeSegments
  split
  · rfl
  · rfl

theorem handleRateChange_isComplete (t : Tracker) (r c : ℚ) :
    ((handleRateChange t r c).1).isComplete = t.isComplete := by
  simp only [handleRateChange, finalizeCurrentSegment, mergeSegments]
  repeat' split
  all_goals rfl

theorem handleTimeUpdate_complete (t : Tracker) (c : ℚ)
    (hc : t.isComplete = true) : handleTimeUpdate t c = t := by
  unfold handleTimeUpdate
  rw [if_pos (show (!t.isTracking || t.isComplete) = true by rw [hc]; simp)]

/-- C7: the completion flag is one-way and the completion notification is
one-shot.  Once `isComplete` is true, time-updates do nothing, no handler ever
resets the flag, and a further ended event emits no completion toast.  From a
not-yet-complete state, an ended event sets the flag exactly when the watched
total of the post-save segment set reaches 98% of a positive duration, and in
that case it saves a second record and emits the success toast exactly once;
otherwise the flag stays false, one record is saved and no toast is shown. -/
theorem C7_completion_one_way (t : Tracker) (c r : ℚ) :
    (t.isComplete = true →
      handleTimeUpdate t c = t ∧
      (handleSeeked t c).isComplete = true ∧
      ((handleRateChange t r c).1).isComplete = true ∧
      ((handlePause t).1).isComplete = true ∧
      ((handleEnded t).1).isComplete = true ∧
      ((destroy t).1).isComplete = true ∧
      (handleEnded t).2.2 = []) ∧
    (t.isComplete = false →
      (((handleEnded t).1.isComplete = true) ↔
        (0 < t.duration ∧ COMPLETION_THRESHOLD ≤
          calculateTotalWatched
            ((saveProgressNow (finalizeCurrentSegment t)).1.watchedSegments) /
            t.duration)) ∧
      ((handleEnded t).1.isComplete = true →
        (handleEnded t).2.2 = [Notice.completed] ∧ (handleEnded t).2.1.length = 2) ∧
      ((handleEnded t).1.isComplete = false →
        (handleEnded t).2.2 = [] ∧ (handleEnded t).2.1.length = 1)) := by
  constructor
  · intro hc
    have hfin : (finalizeCurrentSegment t).isComplete = true := by
      rw [(finalize_fields t).2.2.2.2.2.1]
      exact hc
    have hsave : (saveProgressNow (finalizeCurrentSegment t)).1.isComplete = true := hfin
    have hended : ((handleEnded t).1).isComplete = true := by
      rw [handleEnded_eq, checkCompletion_complete _ hsave]
      exact hsave
    have hnotices : (handleEnded t).2.2 = [] := by
      rw [handleEnded_eq, checkCompletion_complete _ hsave]
    have hdt : (finalizeCurrentSegment { t with isTracking := false }).isComplete = true := by
      rw [(finalize_fields { t with isTracking := false }).2.2.2.2.2.1]
      exact hc
    refine ⟨handleTimeUpdate_complete t c hc, ?_, ?_, hsave, hended, hdt, hnotices⟩
    · rw [handleSeeked_isComplete]
      exact hc
    · rw [handleRateChange_isComplete]
      exact hc
  · intro hc
    have hp1c : (saveProgressNow (finalizeCurrentSegment t)).1.isComplete = false := by
      show (finalizeCurrentSegment t).isComplete = false
      rw [(finalize_fields t).2.2.2.2.2.1]
      exact hc
    have hdur : (saveProgressNow (finalizeCurrentSegment t)).1.duration = t.duration := by
      rw [(saveProgressNow_fields _).2.1, (finalize_fields t).2.1]
    have hwa : (saveProgressNow (finalizeCurrentSegment t)).1.watchedSegments =
        (saveProgressNow (finalizeCurrentSegment t)).1.watchedSegments := rfl
    have hcc := checkCompletion_spec _ hp1c
    rw [hdur] at hcc
    rw [handleEnded_eq]
    refine ⟨hcc.1, ?_, ?_⟩
    · intro hctrue
      refine ⟨(hcc.2.1).mpr ((hcc.1).mp hctrue), ?_⟩
      have hlen := hcc.2.2.1 hctrue
      simp only [List.length_cons, hlen]
    · intro hcfalse
      obtain ⟨hnone, hnil⟩ := hcc.2.2.2 hcfalse
      refine ⟨hnil, ?_⟩
      rw [hnone]
      rfl

/-- Witness for C7: a 10-second video entirely watched; the ended event marks
it complete. -/
theorem C7_witness :
    (handleEnded { baseT with
      duration := 10, watchedSegments := [(0, 10)] }).1.isComplete = true := by
  have h := (C7_completion_one_way
    { baseT with duration := 10, watchedSegments := [(0, 10)] } 0 1).2 rfl
  refine h.1.mpr ⟨by norm_num, ?_⟩
  norm_num [saveProgressNow, finalizeCurrentSegment, mergeSegments, mergeSegmentsArray,
    aliasMutate, calculateTotalWatched, COMPLETION_THRESHOLD, baseT]

/-- C10: the published percentage never comes from a division by a non-positive
duration — it is 0 whenever `duration <= 0` — and for any segment set of
well-formed intervals it lies in `[0, 100]`, in both `getState` and the
event-bus snapshot; and `checkCompletion` never marks a video complete while
`duration <= 0`. -/
theorem C10_percent_bounds (t : Tracker)
    (hwf : ∀ s ∈ t.watchedSegments, s.1 ≤ s.2) :
    (t.duration ≤ 0 → (getState t).percentComplete = 0 ∧
      (emitProgressUpdate t).percentComplete = 0) ∧
    (0 ≤ (getState t).percentComplete ∧ (getState t).percentComplete ≤ 100) ∧
    (0 ≤ (emitProgressUpdate t).percentComplete ∧
      (emitProgressUpdate t).percentComplete ≤ 100) ∧
    (t.duration ≤ 0 → (checkCompletion t).1.isComplete = t.isComplete) := by
  have htot := calculateTotalWatched_nonneg t.watchedSegments hwf
  have hX : 0 ≤ (if 0 < t.duration then
      calculateTotalWatched t.watchedSegments / t.duration * 100 else 0) := by
    split
    · next hdur => exact mul_nonneg (div_nonneg htot (le_of_lt hdur)) (by norm_num)
    · exact le_refl 0
  have hg : (getState t).percentComplete =
      min (if 0 < t.duration then
        calculateTotalWatched t.watchedSegments / t.duration * 100 else 0) 100 := rfl
  have he : (emitProgressUpdate t).percentComplete =
      min (if 0 < t.duration then
        calculateTotalWatched t.watchedSegments / t.duration * 100 else 0) 100 := rfl
  refine ⟨fun hd => ⟨?_, ?_⟩, ⟨?_, ?_⟩, ⟨?_, ?_⟩, fun hd => ?_⟩
  · rw [hg, if_neg (not_lt.mpr hd)]
    exact min_eq_left (by norm_num)
  · rw [he, if_neg (not_lt.mpr hd)]
    exact min_eq_left (by norm_num)
  · rw [hg]
    exact le_min hX (by norm_num)
  · rw [hg]
    exact min_le_right _ _
  · rw [he]
    exact le_min hX (by norm_num)
  · rw [he]
    exact min_le_right _ _
  · simp only [checkCompletion]
    rw [if_pos (Or.inr hd)]

/-- Witness for C10 at a tracker whose duration is the invalid value -5. -/
theorem C10_witness :
    (getState { baseT with duration := -5 }).percentComplete = 0 := by
  have h := C10_percent_bounds { baseT with duration := -5 } (by simp [baseT])
  exact (h.1 (by norm_num)).1
